import Mathlib

set_option maxRecDepth 8000

/-!
Verification development for the trailing-comma rewriter
(module `add_trailing_comma/_main.py` of the `remove-trailing-comma` tool).

The rewriter module itself is embedded faithfully, function by function.
Collaborator modules that it imports (`tokenize_rt`, `_ast_helpers`,
`_data`, `_token_helpers`) are not part of the rewriter module; each of
their operations used here is modelled from the specification, as noted
in the doc comment of the corresponding definition.
-/

/-- A lexical token: kind name and exact source text, as in `tokenize_rt.Token`.
Offsets are omitted: the rewriter consults them only to look up tree-walker
callbacks, and no callback-registering construct occurs in the programs
considered here. -/
structure Token where
  name : String
  src : String
deriving DecidableEq, Repr

instance : Inhabited Token := ⟨⟨"", ""⟩⟩

/-- Indexing into a token list, with an out-of-range default of a zero-width
nameless token. -/
def tokAt (t : List Token) (i : Nat) : Token := t.getD i ⟨"", ""⟩

/-- Whitespace characters, the set matched by the `\s` regex class. -/
def isWsChar (c : Char) : Bool :=
  c = ' ' || c = '\t' || c = '\n' || c = '\r' || c = '\x0b' || c = '\x0c'

def isIdentChar (c : Char) : Bool := c.isAlpha || c.isDigit || c = '_'

def START_BRACES : List String := ["(", "[", "\x7b"]

def END_BRACES : List String := [")", "]", "\x7d"]

def closerOf (s : String) : String :=
  if s = "(" then ")" else if s = "[" then "]" else if s = "\x7b" then "\x7d" else ""

/-- Modelled from the spec (§4.1 Token Stream; the collaborator
`tokenize_rt.src_to_tokens` is not under `src/`): a lossless lexer.
Newlines inside brackets are `NL`, logical newlines are `NEWLINE`;
runs of blanks are `UNIMPORTANT_WS`; words are `NAME`, digit runs are
`NUMBER`, quoted literals are `STRING`, `#` comments are `COMMENT`, and
everything else is a single-character `OP`.  Concatenating the `src`
fields of the result reproduces the input text.  The first argument is
fuel; every step consumes at least one character, so fuel equal to the
length of the input suffices. -/
def tokenizeGo : Nat → List Char → Nat → List Token
  | 0, _, _ => []
  | _, [], _ => []
  | fuel+1, c :: cs, depth =>
    if c = '\n' then
      ⟨if 0 < depth then "NL" else "NEWLINE", "\n"⟩ :: tokenizeGo fuel cs depth
    else if c = ' ' || c = '\t' then
      let run := cs.takeWhile (fun x => x = ' ' || x = '\t')
      ⟨"UNIMPORTANT_WS", String.mk (c :: run)⟩ :: tokenizeGo fuel (cs.drop run.length) depth
    else if c.isAlpha || c = '_' then
      let run := cs.takeWhile isIdentChar
      ⟨"NAME", String.mk (c :: run)⟩ :: tokenizeGo fuel (cs.drop run.length) depth
    else if c.isDigit then
      let run := cs.takeWhile Char.isDigit
      ⟨"NUMBER", String.mk (c :: run)⟩ :: tokenizeGo fuel (cs.drop run.length) depth
    else if c = '"' || c = '\'' then
      let content := cs.takeWhile (fun x => x != c)
      ⟨"STRING", String.mk (c :: (content ++ [c]))⟩ ::
        tokenizeGo fuel (cs.drop (content.length + 1)) depth
    else if c = '#' then
      let run := cs.takeWhile (fun x => x != '\n')
      ⟨"COMMENT", String.mk (c :: run)⟩ :: tokenizeGo fuel (cs.drop run.length) depth
    else
      let d2 := if c = '(' || c = '[' || c = '\x7b' then depth + 1
                else if c = ')' || c = ']' || c = '\x7d' then depth - 1 else depth
      ⟨"OP", String.mk [c]⟩ :: tokenizeGo fuel cs d2

/-- Modelled from the spec (§4.1): `src_to_tokens`. -/
def src_to_tokens (s : String) : List Token := tokenizeGo (s.length + 1) s.data 0

/-- Modelled from the spec (§4.1): `tokens_to_src` concatenates the exact
source text of every token. -/
def tokens_to_src (t : List Token) : String :=
  String.mk (t.foldr (fun tok acc => tok.src.data ++ acc) [])

/-! ### The skip-pattern regexes of `_should_skip_adding_comma`

Each of the nine regexes in `_should_skip_adding_comma` alternates literal
text with `\s+` or `[\s\n]+` gaps (both match one or more whitespace
characters, also under `re.DOTALL`), so they are embedded as lists of
pattern parts and matched with a small backtracking matcher. -/

inductive Pat where
  | lit (s : List Char) : Pat
  | wsp : Pat
deriving Repr

/-- Match a part list against a prefix of `cs`.  A `wsp` part consumes one
whitespace character and then either continues with the remaining parts or
consumes more whitespace (backtracking).  The first argument is fuel;
every step shortens the text or the part list, so
`cs.length + ps.length + 1` suffices. -/
def matchGo : Nat → List Pat → List Char → Bool
  | 0, _, _ => false
  | _, [], _ => true
  | fuel+1, Pat.lit l :: ps, cs =>
    l.isPrefixOf cs && matchGo fuel ps (cs.drop l.length)
  | fuel+1, Pat.wsp :: ps, cs =>
    match cs with
    | [] => false
    | c :: cs2 => isWsChar c && (matchGo fuel ps cs2 || matchGo fuel (Pat.wsp :: ps) cs2)

/-- `re.search`: try a prefix match at every position. -/
def searchParts (ps : List Pat) : List Char → Bool
  | [] => matchGo (ps.length + 1) ps []
  | c :: cs => matchGo ((c :: cs).length + ps.length + 1) ps (c :: cs) || searchParts ps cs

/-- The nine regexes of `_should_skip_adding_comma`, in source order. -/
def SKIP_PATTERNS : List (List Pat) :=
  [ [Pat.lit "tuple(\n".data, Pat.wsp, Pat.lit "a for a in b\n)".data],
    [Pat.lit "(\n".data, Pat.wsp, Pat.lit "a\n).f(b)".data],
    [Pat.lit "x = (\n".data, Pat.wsp, Pat.lit "f\" \x7btest(t)\x7d\"\n)".data],
    [Pat.lit "x = (\n".data, Pat.wsp, Pat.lit "object\n), object".data],
    [Pat.lit "with (\n".data, Pat.wsp, Pat.lit "open(\"wat\")\n) as f".data],
    [Pat.lit "x = (\"foo\"".data, Pat.wsp, Pat.lit "\"bar\")".data],
    [Pat.lit "[a()".data, Pat.wsp, Pat.lit "for b in c".data, Pat.wsp, Pat.lit "if (".data,
      Pat.wsp, Pat.lit "d".data, Pat.wsp, Pat.lit ")".data, Pat.wsp, Pat.lit "]".data],
    [Pat.lit "x = [x".data, Pat.wsp, Pat.lit "for x in y()]".data],
    [Pat.lit "x = (\n".data, Pat.wsp, Pat.lit "\"foo\"\n".data, Pat.wsp, Pat.lit "\"bar\"\n".data,
      Pat.wsp, Pat.lit ")".data] ]

/-- True when any skip regex matches somewhere in the source text
(the regex part of `_should_skip_adding_comma`). -/
def skip_patterns_match (srcTxt : List Char) : Bool :=
  SKIP_PATTERNS.any (fun p => searchParts p srcTxt)

/-! ### The hard-coded replacement table at the top of `_fix_src` -/

/-- Plain substring containment, Python's `pattern in contents_text`. -/
def substrContains : List Char → List Char → Bool
  | hay, pat =>
    pat.isPrefixOf hay ||
      match hay with
      | [] => false
      | _ :: rest => substrContains rest pat

/-- The five literal pattern/replacement pairs of `_fix_src`, in source order. -/
def HARD_REPLACEMENTS : List (String × String) :=
  [ ("x = (\"foo\"\n     \"bar\")", "x = (\n    \"foo\"\n    \"bar\"\n)"),
    ("[a()\n    for b in c\n    if (\n        d\n    )\n]",
     "[\n    a()\n    for b in c\n    if (\n        d\n    )\n]"),
    ("x = [x\n     for x in y()]", "x = [\n    x\n    for x in y()\n]\n"),
    ("x = (\n    \"foo\"\n    \"bar\"\n    )", "x = (\n    \"foo\"\n    \"bar\"\n)"),
    ("with (\n    open(\"wat\")\n) as f, open(\"2\") as f2: pass",
     "with (\n    open(\"wat\")\n) as f, open(\"2\") as f2: pass") ]

/-- The first hard-coded replacement whose pattern occurs in the text, if any
(the pattern loop at the top of `_fix_src`). -/
def hardcodedLookup (s : String) : Option String :=
  (HARD_REPLACEMENTS.find? (fun pr => substrContains s.data pr.1.data)).map (fun pr => pr.2)

/-! ### Parse model -/

/-- Bracket-balance check over a token stream. -/
def balancedGo : List Token → List String → Bool
  | [], stack => stack.isEmpty
  | tok :: ts, stack =>
    if tok.src ∈ START_BRACES then balancedGo ts (closerOf tok.src :: stack)
    else if tok.src ∈ END_BRACES then
      match stack with
      | c :: rest => tok.src = c && balancedGo ts rest
      | [] => false
    else balancedGo ts stack

/-- Modelled from the spec (§6, §7: `ast_parse` from `_ast_helpers` is not
under `src/`; the spec requires only that parsing fails exactly on
syntactically invalid input).  Modelled as bracket balance of the token
stream, a necessary condition for a successful parse: the inputs used below
as parse-failure examples are bracket-unbalanced, hence unparseable. -/
def ast_parse_ok (s : String) : Bool := balancedGo (src_to_tokens s) []

/-! ### In-place token list mutations

The Python code mutates the token list with `tokens[j] = ...`,
`tokens[j:j+1] = []` and `tokens.insert(j, ...)`; these are the
corresponding pure operations, defined structurally. -/

/-- Delete the token at index `j` (`tokens[j:j+1] = []`); out-of-range
indices leave the list unchanged. -/
def removeAt : Nat → List Token → List Token
  | _, [] => []
  | 0, _ :: ts => ts
  | n+1, t :: ts => t :: removeAt n ts

/-- Replace the token at index `j` (`tokens[j] = x`); out-of-range indices
leave the list unchanged. -/
def setAt : Nat → Token → List Token → List Token
  | _, _, [] => []
  | 0, x, _ :: ts => x :: ts
  | n+1, x, t :: ts => t :: setAt n x ts

/-- Insert a token before index `j` (`tokens.insert(j, x)`); an index past
the end appends. -/
def insertAt : Nat → Token → List Token → List Token
  | 0, x, ts => x :: ts
  | _+1, x, [] => [x]
  | n+1, x, t :: ts => t :: insertAt n x ts

/-! ### The bracket-region analyzer (`find_simple` of `_token_helpers`) -/

/-- The descriptor produced by `find_simple`: matched brace indices and the
multiple-argument flag (`FixData` of `_token_helpers`). -/
structure FixData where
  multi_arg : Bool
  openB : Nat
  close : Nat
deriving DecidableEq, Repr

/-- Find the index of the close bracket matching the open bracket whose
expected closers are on `stack`, scanning from `k`.  Mismatched or
unterminated brackets give `none`.  The first argument is fuel; `t.length`
suffices since `k` advances every step. -/
def matchingClose (t : List Token) : Nat → Nat → List String → Option Nat
  | 0, _, _ => none
  | fuel+1, k, stack =>
    if k < t.length then
      let s := (tokAt t k).src
      if s ∈ START_BRACES then matchingClose t fuel (k+1) (closerOf s :: stack)
      else if s ∈ END_BRACES then
        match stack with
        | [] => none
        | [c] => if s = c then some k else none
        | c :: rest => if s = c then matchingClose t fuel (k+1) rest else none
      else matchingClose t fuel (k+1) stack
    else none

def ELEMENT_SKIP_NAMES : List String :=
  ["UNIMPORTANT_WS", "NL", "NEWLINE", "COMMENT", "INDENT", "DEDENT"]

/-- Count the top-level comma-delimited groups holding at least one
non-whitespace, non-comment token, between indices `k` (inclusive) and
`close` (exclusive); a trailing empty group does not count.  `depth` is the
bracket depth relative to the region, `cur` records whether the current
group is non-empty so far.  Fueled; `close` suffices. -/
def countElems (t : List Token) : Nat → Nat → Nat → Nat → Bool → Nat → Nat
  | 0, _, _, _, cur, acc => acc + (if cur then 1 else 0)
  | fuel+1, k, close, depth, cur, acc =>
    if k < close then
      let tok := tokAt t k
      if tok.src ∈ START_BRACES then countElems t fuel (k+1) close (depth+1) true acc
      else if tok.src ∈ END_BRACES then countElems t fuel (k+1) close (depth-1) true acc
      else if tok.src = "," ∧ depth = 0 then
        countElems t fuel (k+1) close depth false (acc + (if cur then 1 else 0))
      else if tok.name ∈ ELEMENT_SKIP_NAMES ∨ tok.src = "" then
        countElems t fuel (k+1) close depth cur acc
      else countElems t fuel (k+1) close depth true acc
    else acc + (if cur then 1 else 0)

/-- Modelled from the spec (§4.3 Bracket Region Analyzer; `find_simple` of
`_token_helpers` is not under `src/`): match the close bracket of the open
bracket at `i`, count top-level element groups, and return a descriptor
with `multi_arg = element_count ≥ 1` (§4.3.5); an empty or unmatched region
is ineligible (`none`, §4.3.4).  The spec's `is_multiline` gate is *not*
applied here: the repository's own tests remove trailing commas from
single-line regions (`test_main_preserve_single_tuple_comma`), so the
multiline restriction can live only in add-mode's `fix_brace` (§4.4,
§8 "Non-multiline region untouched"). -/
def find_simple (i : Nat) (t : List Token) : Option FixData :=
  if (tokAt t i).src ∈ START_BRACES then
    match matchingClose t t.length (i+1) [closerOf (tokAt t i).src] with
    | none => none
    | some c =>
      let n := countElems t c (i+1) c 0 false 0
      if n = 0 then none else some ⟨true, i, c⟩
  else none

/-- Is there a line break strictly between indices `k` and `b`?  Newlines
inside brackets carry the `NL` kind.  Fueled; `b` suffices. -/
def hasNlBetween (t : List Token) : Nat → Nat → Nat → Bool
  | 0, _, _ => false
  | fuel+1, k, b =>
    if k < b then (tokAt t k).name = "NL" || hasNlBetween t fuel (k+1) b
    else false

/-! ### `_is_single_element_tuple` (from `_main.py`) -/

/-- The backward scan `while j > i and tokens[j].name in ('UNIMPORTANT_WS', 'NL')`
used to find the last interesting token before a close bracket. -/
def backToNonWs (t : List Token) (i : Nat) : Nat → Nat
  | 0 => 0
  | j+1 =>
    if i < j + 1 ∧ (tokAt t (j+1)).name ∈ ["UNIMPORTANT_WS", "NL"] then backToNonWs t i j
    else j + 1

/-- The inner `while` of the argument-count loop: skip forward (below
`last`) past whitespace and anything that is not a comma.  Fueled;
`last + 1` suffices since `j` strictly increases while below `last`. -/
def skipToComma (t : List Token) (last : Nat) : Nat → Nat → Nat
  | 0, j => j
  | fuel+1, j =>
    if j < last ∧ ((tokAt t j).name ∈ ["UNIMPORTANT_WS", "NL"] ∨ (tokAt t j).src ≠ ",") then
      skipToComma t last fuel (j+1)
    else j

/-- The argument-count loop of `_is_single_element_tuple`: count
`NAME`/`NUMBER`/`STRING` tokens, skipping to the comma after each one.
Fueled; `last + 1` suffices since `j` strictly increases. -/
def argCountGo (t : List Token) (last : Nat) : Nat → Nat → Nat → Nat
  | 0, _, acc => acc
  | fuel+1, j, acc =>
    if j < last then
      if (tokAt t j).name ∈ ["NAME", "NUMBER", "STRING"] then
        let j2 := skipToComma t last (last + 1) (j+1)
        let j3 := if j2 < last ∧ (tokAt t j2).src = "," then j2 + 1 else j2
        argCountGo t last fuel j3 (acc + 1)
      else argCountGo t last fuel (j+1) acc
    else acc

/-- The backward scan `k = i - 1; while k >= 0 and tokens[k].name in (...)`:
index of the nearest preceding token that is not whitespace, or `none` when
the scan runs off the front. -/
def scanBack (t : List Token) : Nat → Option Nat
  | 0 => if (tokAt t 0).name ∈ ["UNIMPORTANT_WS", "NL"] then none else some 0
  | k+1 => if (tokAt t (k+1)).name ∈ ["UNIMPORTANT_WS", "NL"] then scanBack t k else some (k+1)

/-- The token texts treated as tuple-forming context (`tuple_operator_contexts`). -/
def TUPLE_OPS : List String :=
  ["=", "+=", "-=", "*=", "/=", "%=", "//=", "**=",
   "&=", "|=", "^=", ">>=", "<<=", "return", ",", "["]

/-- `_is_single_element_tuple` from `_main.py`: single-argument parenthesized
region whose nearest preceding non-whitespace token is a tuple-forming
operator, outside import and function-definition contexts. -/
def is_single_element_tuple (t : List Token) (i last : Nat) : Bool :=
  let arg_count := argCountGo t last (last + 1) (i+1) 0
  if arg_count ≠ 1 then false
  else if (tokAt t i).src ≠ "(" then false
  else if i = 0 then false
  else
    match scanBack t (i-1) with
    | none => false
    | some k =>
      let prev := tokAt t k
      let is_tuple_context := prev.src ∈ TUPLE_OPS
      let is_import_context := prev.src = "import" ∨
        (0 < k ∧ prev.src = "from" ∧ (tokAt t (k-1)).src = "import")
      let is_function_context := prev.src = "def" ∨ (0 < k ∧ (tokAt t (k-1)).src = "def")
      decide (is_tuple_context ∧ ¬is_import_context ∧ ¬is_function_context)

/-! ### The rewrite helpers -/

/-- `_fix_unhugged_brace` from `_main.py`: when the region is eligible and
the token just before its close brace is whitespace or a newline, replace
that token by a bare newline. -/
def fix_unhugged_brace (t : List Token) : Option FixData → List Token
  | none => t
  | some fd =>
    if ¬fd.multi_arg then t
    else if (tokAt t (fd.close - 1)).name ∈ ["UNIMPORTANT_WS", "NL"] then
      setAt (fd.close - 1) ⟨"UNIMPORTANT_WS", "\n"⟩ t
    else t

/-- `_should_skip_adding_comma` from `_main.py`: skip when there is no fix
descriptor or when any of the hard-coded regexes matches the whole source
text. -/
def should_skip_adding_comma (srcTxt : List Char) (fix_data : Option FixData) : Bool :=
  fix_data.isNone || skip_patterns_match srcTxt

/-- Index of the newline token closest before index `k`, if any. -/
def lastNlBefore (t : List Token) : Nat → Option Nat
  | 0 => none
  | k+1 => if (tokAt t k).name ∈ ["NL", "NEWLINE"] then some k else lastNlBefore t k

/-- Index of the first token of the line containing the token at index `k`. -/
def lineIndentStart (t : List Token) (k : Nat) : Nat :=
  match lastNlBefore t k with
  | none => 0
  | some m => m + 1

/-- Leading whitespace of the line containing the token at index `k`. -/
def lineIndentOf (t : List Token) (k : Nat) : String :=
  if (tokAt t (lineIndentStart t k)).name = "UNIMPORTANT_WS" then
    (tokAt t (lineIndentStart t k)).src
  else ""

/-- Modelled from the spec (§4.4 Add mode: normalize the close bracket's
leading whitespace to the indentation of the line holding the open
bracket): when the close bracket at `lb` sits on its own line behind a
whitespace token, replace that token's text by the open line's indent. -/
def normalizeClose (t : List Token) (op lb : Nat) : List Token :=
  if (tokAt t (lb - 1)).name = "UNIMPORTANT_WS" ∧ (tokAt t (lb - 2)).name = "NL" then
    setAt (lb - 1) ⟨"UNIMPORTANT_WS", lineIndentOf t op⟩ t
  else t

/-- Modelled from the spec (§4.4 Add mode; `fix_brace` of `_token_helpers`
is not under `src/`): on an eligible multiline region, insert a comma after
the last non-whitespace token before the close bracket unless one is
already there, then normalize the close bracket's leading whitespace.
Single-line regions are untouched (§8 "Non-multiline region untouched"). -/
def fix_brace (t : List Token) : Option FixData → List Token
  | none => t
  | some fd =>
    if fd.multi_arg ∧ hasNlBetween t fd.close (fd.openB + 1) fd.close then
      if fd.openB < backToNonWs t fd.openB (fd.close - 1) ∧
          (tokAt t (backToNonWs t fd.openB (fd.close - 1))).src ≠ "," then
        normalizeClose (insertAt (backToNonWs t fd.openB (fd.close - 1) + 1) ⟨"OP", ","⟩ t)
          fd.openB (fd.close + 1)
      else normalizeClose t fd.openB fd.close
    else t

/-! ### The two rewrite passes of `_main.py`

The `visit(FUNCS, ast_obj)` callback table is modelled as empty: the
bespoke constructs that register callbacks (§4.2) do not occur in the
programs considered here, and the `DEDENT` zero-width skip is kept. -/

/-- The open-bracket handling of `_remove_trailing_commas` (lines 154-174
of `_main.py`), as a function of the `find_simple` result: remove the
trailing comma of an eligible non-tuple region, then always fix the close
brace indentation (`continue` on a single-element tuple skips the brace
fix; note that the brace fix receives the brace indices computed before the
deletion). -/
def removeStepBrace (srcTxt : List Char) (i : Nat) (t : List Token) :
    Option FixData → List Token
  | none => fix_unhugged_brace t none
  | some fd =>
    if fd.multi_arg ∧ ¬should_skip_adding_comma srcTxt (some fd) then
      if is_single_element_tuple t i fd.close then t
      else
        if i < backToNonWs t i (fd.close - 1) ∧
            (tokAt t (backToNonWs t i (fd.close - 1))).src = "," then
          fix_unhugged_brace (removeAt (backToNonWs t i (fd.close - 1)) t) (some fd)
        else fix_unhugged_brace t (some fd)
    else fix_unhugged_brace t (some fd)

/-- One iteration of the loop body of `_remove_trailing_commas`. -/
def removeStep (srcTxt : List Char) (i : Nat) (t : List Token) : List Token :=
  if (tokAt t i).src = "" then t
  else if (tokAt t i).name = "OP" ∧ (tokAt t i).src ∈ START_BRACES then
    removeStepBrace srcTxt i t (find_simple i t)
  else t

/-- The `_changing_list` loop of `_remove_trailing_commas`, fueled; the
list never grows in remove mode, so fuel `t.length + 1` suffices. -/
def removeLoop (srcTxt : List Char) : Nat → Nat → List Token → List Token
  | 0, _, t => t
  | fuel+1, i, t => if i < t.length then removeLoop srcTxt fuel (i+1) (removeStep srcTxt i t) else t

/-- One iteration of the loop body of the add-mode part of `_fix_src`. -/
def addStep (srcTxt : List Char) (i : Nat) (t : List Token) : List Token :=
  if (tokAt t i).src = "" then t
  else if (tokAt t i).name = "OP" ∧ (tokAt t i).src ∈ START_BRACES then
    if ¬should_skip_adding_comma srcTxt (find_simple i t) then
      fix_brace t (find_simple i t)
    else fix_unhugged_brace t (find_simple i t)
  else t

/-- The `_changing_list` loop of add mode, fueled; each iteration inserts at
most one token, and only at an open-bracket position, so fuel
`2 * t.length + 2` suffices. -/
def addLoop (srcTxt : List Char) : Nat → Nat → List Token → List Token
  | 0, _, t => t
  | fuel+1, i, t => if i < t.length then addLoop srcTxt fuel (i+1) (addStep srcTxt i t) else t

/-- `_remove_trailing_commas` from `_main.py`: parse (no-op on failure),
tokenize, run the removal loop, and re-serialize. -/
def remove_trailing_commas (contents_text : String) : String :=
  if ast_parse_ok contents_text then
    let t := src_to_tokens contents_text
    tokens_to_src (removeLoop contents_text.data (t.length + 1) 0 t)
  else contents_text

/-- `_fix_src` from `_main.py`: remove mode delegates to
`remove_trailing_commas`; add mode first consults the hard-coded
replacement table, then parses (no-op on failure), then runs the add
loop. -/
def fix_src (contents_text : String) (remove_comma : Bool) : String :=
  if remove_comma then remove_trailing_commas contents_text
  else
    match hardcodedLookup contents_text with
    | some r => r
    | none =>
      if ast_parse_ok contents_text then
        let t := src_to_tokens contents_text
        tokens_to_src (addLoop contents_text.data (2 * t.length + 2) 0 t)
      else contents_text

/-! ### `fix_file` (from `_main.py`) and the byte-decoding boundary -/

/-- Strict UTF-8 decoding of a byte sequence (the semantics of Python's
`bytes.decode()`), `none` on any malformed sequence. -/
def utf8Decode : List Nat → Option (List Char)
  | [] => some []
  | b :: bs =>
    if b < 0x80 then (utf8Decode bs).map (fun l => Char.ofNat b :: l)
    else if 0xC2 ≤ b ∧ b ≤ 0xDF then
      match bs with
      | b1 :: bs2 =>
        if 0x80 ≤ b1 ∧ b1 ≤ 0xBF then
          (utf8Decode bs2).map (fun l => Char.ofNat ((b - 0xC0) * 64 + (b1 - 0x80)) :: l)
        else none
      | [] => none
    else if 0xE0 ≤ b ∧ b ≤ 0xEF then
      match bs with
      | b1 :: b2 :: bs2 =>
        let lo1 := if b = 0xE0 then 0xA0 else 0x80
        let hi1 := if b = 0xED then 0x9F else 0xBF
        if lo1 ≤ b1 ∧ b1 ≤ hi1 ∧ 0x80 ≤ b2 ∧ b2 ≤ 0xBF then
          (utf8Decode bs2).map
            (fun l => Char.ofNat ((b - 0xE0) * 4096 + (b1 - 0x80) * 64 + (b2 - 0x80)) :: l)
        else none
      | _ => none
    else if 0xF0 ≤ b ∧ b ≤ 0xF4 then
      match bs with
      | b1 :: b2 :: b3 :: bs2 =>
        let lo1 := if b = 0xF0 then 0x90 else 0x80
        let hi1 := if b = 0xF4 then 0x8F else 0xBF
        if lo1 ≤ b1 ∧ b1 ≤ hi1 ∧ 0x80 ≤ b2 ∧ b2 ≤ 0xBF ∧ 0x80 ≤ b3 ∧ b3 ≤ 0xBF then
          (utf8Decode bs2).map
            (fun l => Char.ofNat
              ((b - 0xF0) * 262144 + (b1 - 0x80) * 4096 + (b2 - 0x80) * 64 + (b3 - 0x80)) :: l)
        else none
      | _ => none
    else none

/-- UTF-8 encoding of one character. -/
def utf8EncodeChar (c : Char) : List Nat :=
  let n := c.toNat
  if n < 0x80 then [n]
  else if n < 0x800 then [0xC0 + n / 64, 0x80 + n % 64]
  else if n < 0x10000 then [0xE0 + n / 4096, 0x80 + (n / 64) % 64, 0x80 + n % 64]
  else [0xF0 + n / 262144, 0x80 + (n / 4096) % 64, 0x80 + (n / 64) % 64, 0x80 + n % 64]

/-- UTF-8 encoding of a text (the semantics of Python's `str.encode()`). -/
def utf8Encode (s : String) : List Nat := (s.data.map utf8EncodeChar).flatten

/-- The two flags of `argparse.Namespace` that `fix_file` reads. -/
structure Args where
  remove_comma : Bool
  exit_zero_even_if_changed : Bool
deriving DecidableEq, Repr

/-- `fix_file` from `_main.py`, with the file system abstracted away: takes
the file's bytes, returns the exit code and the file's resulting bytes.
A decode failure reports exit code 1 with the file untouched; otherwise the
rewritten text is written back only when it changed, and the exit code is
forced to 0 by `exit_zero_even_if_changed`, else reports whether the text
changed. -/
def fix_file (contents_bytes : List Nat) (args : Args) : Nat × List Nat :=
  match utf8Decode contents_bytes with
  | none => (1, contents_bytes)
  | some chars =>
    let contents_text_orig := String.mk chars
    let contents_text := fix_src contents_text_orig args.remove_comma
    ((if args.exit_zero_even_if_changed then 0
      else if contents_text ≠ contents_text_orig then 1 else 0),
     if contents_text ≠ contents_text_orig then utf8Encode contents_text else contents_bytes)

/-! ### Frame relations and the change projection

These definitions give the claims about what a pass may and may not change
a precise shape: `RemoveFrame` says each input token is kept, is a deleted
comma, or is a whitespace token replaced by a newline; `SubstOnly` allows
only the whitespace replacement; `frameProj` erases exactly the content
that the claims permit to change (comma tokens, and whitespace directly
before a close bracket) and keeps everything else, so a pass touching
nothing further preserves it. -/

def isWsTok (tok : Token) : Bool := decide (tok.name ∈ ["UNIMPORTANT_WS", "NL", "NEWLINE", "INDENT"])

def isCommaTok (tok : Token) : Bool := tok.src = ","

def isCloseTok (tok : Token) : Bool := decide (tok.src ∈ END_BRACES)

/-- Output obtained from input only by deleting comma tokens and replacing
whitespace tokens by a bare newline. -/
inductive RemoveFrame : List Token → List Token → Prop where
  | nil : RemoveFrame [] []
  | keep (tok : Token) (a b : List Token) :
      RemoveFrame a b → RemoveFrame (tok :: a) (tok :: b)
  | delc (tok : Token) (a b : List Token) : tok.src = "," →
      RemoveFrame a b → RemoveFrame (tok :: a) b
  | subst (tok : Token) (a b : List Token) : tok.name ∈ ["UNIMPORTANT_WS", "NL"] →
      RemoveFrame a b → RemoveFrame (tok :: a) (⟨"UNIMPORTANT_WS", "\n"⟩ :: b)

/-- Output obtained from input only by replacing whitespace tokens by a
bare newline: no token is inserted or deleted. -/
inductive SubstOnly : List Token → List Token → Prop where
  | nil : SubstOnly [] []
  | keep (tok : Token) (a b : List Token) :
      SubstOnly a b → SubstOnly (tok :: a) (tok :: b)
  | subst (tok : Token) (a b : List Token) : tok.name ∈ ["UNIMPORTANT_WS", "NL"] →
      SubstOnly a b → SubstOnly (tok :: a) (⟨"UNIMPORTANT_WS", "\n"⟩ :: b)

/-- The protected content of a token stream: comma tokens are erased,
whitespace is folded into the following token's entry, except that
whitespace directly before a close bracket is dropped.  Two streams with
the same projection differ only in comma tokens and in whitespace
immediately preceding close brackets. -/
def projFrom : List Char → List Token → List (List Char)
  | pend, [] => if pend.isEmpty then [] else [pend]
  | pend, tok :: ts =>
    if isWsTok tok then projFrom (pend ++ tok.src.data) ts
    else if isCommaTok tok then projFrom pend ts
    else if isCloseTok tok then tok.src.data :: projFrom [] ts
    else (pend ++ tok.src.data) :: projFrom [] ts

def frameProj (t : List Token) : List (List Char) := projFrom [] t

/-- Well-formedness of a token stream: whitespace-kinded tokens hold only
whitespace characters (true of every stream the lexer produces). -/
def wfTokens (t : List Token) : Bool :=
  t.all (fun tok => !(isWsTok tok) || tok.src.data.all isWsChar)

/-! ### The claim-side reading of the tuple-forming rule (C6) -/

/-- Nearest preceding non-whitespace token, stated declaratively: the
largest `k < i` whose token is not skippable whitespace. -/
def nearestPrevNonWs (t : List Token) (i : Nat) : Option Nat :=
  (List.range i).reverse.find?
    (fun k => !(decide ((tokAt t k).name ∈ ["UNIMPORTANT_WS", "NL"])))

/-- The tuple-forming context set as the claim words it, reading "an opening
collection bracket" as any opening bracket. -/
def CLAIM_TUPLE_OPS : List String :=
  ["=", "+=", "-=", "*=", "/=", "%=", "//=", "**=",
   "&=", "|=", "^=", ">>=", "<<=", "return", ","] ++ START_BRACES

/-- The classification rule exactly as claim C6 states it: a parenthesized
single-element region whose nearest preceding non-whitespace token is an
assignment operator, `return`, a comma, or an opening collection bracket,
outside import and function-definition contexts. -/
def claim_tuple_forming (t : List Token) (i last : Nat) : Bool :=
  decide (argCountGo t last (last + 1) (i+1) 0 = 1) &&
  decide ((tokAt t i).src = "(") &&
  match nearestPrevNonWs t i with
  | none => false
  | some k =>
    let prev := tokAt t k
    decide (prev.src ∈ CLAIM_TUPLE_OPS ∧
      ¬(prev.src = "import" ∨ (0 < k ∧ prev.src = "from" ∧ (tokAt t (k-1)).src = "import")) ∧
      ¬(prev.src = "def" ∨ (0 < k ∧ (tokAt t (k-1)).src = "def")))


/-! ## Lemmas about the primitive list edits -/

lemma tokAt_cons_succ (tok : Token) (ts : List Token) (m : Nat) :
    tokAt (tok :: ts) (m+1) = tokAt ts m := by
  simp [tokAt]

lemma tokAt_cons_zero (tok : Token) (ts : List Token) :
    tokAt (tok :: ts) 0 = tok := by
  simp [tokAt]

lemma tokAt_nil (m : Nat) : tokAt [] m = ⟨"", ""⟩ := by
  simp [tokAt]

lemma tokAt_mem {t : List Token} {i : Nat} (h : i < t.length) : tokAt t i ∈ t := by
  induction t generalizing i with
  | nil => simp at h
  | cons tok ts ih =>
    cases i with
    | zero => simp [tokAt_cons_zero]
    | succ m =>
      rw [tokAt_cons_succ]
      exact List.mem_cons_of_mem _ (ih (by simpa using h))

lemma mem_removeAt {x : Token} : ∀ {j : Nat} {t : List Token}, x ∈ removeAt j t → x ∈ t := by
  intro j t
  induction t generalizing j with
  | nil => simp [removeAt]
  | cons tok ts ih =>
    cases j with
    | zero => intro h; exact List.mem_cons_of_mem _ h
    | succ m =>
      intro h
      rcases List.mem_cons.mp h with h1 | h1
      · exact h1 ▸ List.mem_cons_self _ _
      · exact List.mem_cons_of_mem _ (ih h1)

lemma mem_setAt {x y : Token} : ∀ {j : Nat} {t : List Token}, x ∈ setAt j y t → x = y ∨ x ∈ t := by
  intro j t
  induction t generalizing j with
  | nil => simp [setAt]
  | cons tok ts ih =>
    cases j with
    | zero =>
      intro h
      rcases List.mem_cons.mp h with h1 | h1
      · exact Or.inl h1
      · exact Or.inr (List.mem_cons_of_mem _ h1)
    | succ m =>
      intro h
      rcases List.mem_cons.mp h with h1 | h1
      · exact Or.inr (h1 ▸ List.mem_cons_self _ _)
      · rcases ih h1 with h2 | h2
        · exact Or.inl h2
        · exact Or.inr (List.mem_cons_of_mem _ h2)

lemma mem_insertAt {x y : Token} :
    ∀ {j : Nat} {t : List Token}, x ∈ insertAt j y t → x = y ∨ x ∈ t := by
  intro j t
  induction t generalizing j with
  | nil =>
    cases j with
    | zero => intro h; simp [insertAt] at h; exact Or.inl h
    | succ m => intro h; simp [insertAt] at h; exact Or.inl h
  | cons tok ts ih =>
    cases j with
    | zero =>
      intro h
      rcases List.mem_cons.mp h with h1 | h1
      · exact Or.inl h1
      · exact Or.inr h1
    | succ m =>
      intro h
      rcases List.mem_cons.mp h with h1 | h1
      · exact Or.inr (h1 ▸ List.mem_cons_self _ _)
      · rcases ih h1 with h2 | h2
        · exact Or.inl h2
        · exact Or.inr (List.mem_cons_of_mem _ h2)

lemma tokAt_removeAt_ge :
    ∀ {t : List Token} {j m : Nat}, j < t.length → j ≤ m →
      tokAt (removeAt j t) m = tokAt t (m+1) := by
  intro t
  induction t with
  | nil => intro j m h; simp at h
  | cons tok ts ih =>
    intro j m hj hm
    cases j with
    | zero =>
      simp only [removeAt]
      rw [tokAt_cons_succ]
    | succ n =>
      cases m with
      | zero => omega
      | succ m2 =>
        simp only [removeAt]
        rw [tokAt_cons_succ, tokAt_cons_succ]
        exact ih (by simpa using hj) (by omega)

lemma tokAt_insertAt_ge :
    ∀ {t : List Token} {j m : Nat} {x : Token}, j ≤ m → j ≤ t.length →
      tokAt (insertAt j x t) (m+1) = tokAt t m := by
  intro t
  induction t with
  | nil =>
    intro j m x hjm hj
    simp only [List.length_nil, Nat.le_zero] at hj
    subst hj
    simp only [insertAt]
    rw [tokAt_cons_succ]
  | cons tok ts ih =>
    intro j m x hjm hj
    cases j with
    | zero =>
      simp only [insertAt]
      rw [tokAt_cons_succ]
    | succ n =>
      cases m with
      | zero => omega
      | succ m2 =>
        simp only [insertAt]
        rw [tokAt_cons_succ, tokAt_cons_succ]
        exact ih (by omega) (by simpa using hj)

lemma backToNonWs_le (t : List Token) (i : Nat) : ∀ j, backToNonWs t i j ≤ j := by
  intro j
  induction j with
  | zero => simp [backToNonWs]
  | succ n ih =>
    simp only [backToNonWs]
    split
    · omega
    · omega

/-! ## Lemmas about the frame relations -/

lemma rf_refl : ∀ t : List Token, RemoveFrame t t := by
  intro t
  induction t with
  | nil => exact RemoveFrame.nil
  | cons tok ts ih => exact RemoveFrame.keep tok ts ts ih

lemma rf_trans : ∀ {a b c : List Token}, RemoveFrame a b → RemoveFrame b c → RemoveFrame a c := by
  intro a b c h1
  induction h1 generalizing c with
  | nil =>
    intro h2
    cases h2
    exact RemoveFrame.nil
  | keep tok a2 b2 h ih =>
    intro h2
    cases h2 with
    | keep _ _ c2 h3 => exact RemoveFrame.keep tok _ _ (ih h3)
    | delc _ _ c2 hsrc h3 => exact RemoveFrame.delc tok _ _ hsrc (ih h3)
    | subst _ _ c2 hname h3 => exact RemoveFrame.subst tok _ _ hname (ih h3)
  | delc tok a2 b2 hsrc h ih =>
    intro h2
    exact RemoveFrame.delc tok _ _ hsrc (ih h2)
  | subst tok a2 b2 hname h ih =>
    intro h2
    cases h2 with
    | keep _ _ c2 h3 => exact RemoveFrame.subst tok _ _ hname (ih h3)
    | delc _ _ c2 hsrc h3 => simp at hsrc
    | subst _ _ c2 hname2 h3 => exact RemoveFrame.subst tok _ _ hname (ih h3)

lemma so_refl : ∀ t : List Token, SubstOnly t t := by
  intro t
  induction t with
  | nil => exact SubstOnly.nil
  | cons tok ts ih => exact SubstOnly.keep tok ts ts ih

lemma so_trans : ∀ {a b c : List Token}, SubstOnly a b → SubstOnly b c → SubstOnly a c := by
  intro a b c h1
  induction h1 generalizing c with
  | nil =>
    intro h2
    cases h2
    exact SubstOnly.nil
  | keep tok a2 b2 h ih =>
    intro h2
    cases h2 with
    | keep _ _ c2 h3 => exact SubstOnly.keep tok _ _ (ih h3)
    | subst _ _ c2 hname h3 => exact SubstOnly.subst tok _ _ hname (ih h3)
  | subst tok a2 b2 hname h ih =>
    intro h2
    cases h2 with
    | keep _ _ c2 h3 => exact SubstOnly.subst tok _ _ hname (ih h3)
    | subst _ _ c2 hname2 h3 => exact SubstOnly.subst tok _ _ hname (ih h3)

lemma rf_setAt {t : List Token} {j : Nat}
    (h : (tokAt t j).name ∈ ["UNIMPORTANT_WS", "NL"]) :
    RemoveFrame t (setAt j ⟨"UNIMPORTANT_WS", "\n"⟩ t) := by
  induction t generalizing j with
  | nil => cases j <;> exact RemoveFrame.nil
  | cons tok ts ih =>
    cases j with
    | zero =>
      rw [tokAt_cons_zero] at h
      exact RemoveFrame.subst tok ts ts h (rf_refl ts)
    | succ m =>
      rw [tokAt_cons_succ] at h
      exact RemoveFrame.keep tok _ _ (ih h)

lemma so_setAt {t : List Token} {j : Nat}
    (h : (tokAt t j).name ∈ ["UNIMPORTANT_WS", "NL"]) :
    SubstOnly t (setAt j ⟨"UNIMPORTANT_WS", "\n"⟩ t) := by
  induction t generalizing j with
  | nil => cases j <;> exact SubstOnly.nil
  | cons tok ts ih =>
    cases j with
    | zero =>
      rw [tokAt_cons_zero] at h
      exact SubstOnly.subst tok ts ts h (so_refl ts)
    | succ m =>
      rw [tokAt_cons_succ] at h
      exact SubstOnly.keep tok _ _ (ih h)

lemma rf_removeAt {t : List Token} {j : Nat} (h : (tokAt t j).src = ",") :
    RemoveFrame t (removeAt j t) := by
  induction t generalizing j with
  | nil => cases j <;> exact RemoveFrame.nil
  | cons tok ts ih =>
    cases j with
    | zero =>
      rw [tokAt_cons_zero] at h
      exact RemoveFrame.delc tok ts ts h (rf_refl ts)
    | succ m =>
      rw [tokAt_cons_succ] at h
      exact RemoveFrame.keep tok _ _ (ih h)

/-! ## Lemmas about well-formed token streams -/

lemma wf_ws_src {t : List Token} (hwf : wfTokens t = true) {tok : Token}
    (hm : tok ∈ t) (hws : isWsTok tok = true) : tok.src.data.all isWsChar = true := by
  have := (List.all_eq_true.mp hwf) tok hm
  simp only [hws, Bool.not_true, Bool.false_or] at this
  exact this

lemma end_brace_not_allws {s : String} (h : s ∈ END_BRACES) :
    s.data.all isWsChar = false := by
  simp only [END_BRACES, List.mem_cons, List.mem_singleton, List.not_mem_nil, or_false] at h
  rcases h with h | h | h <;> subst h <;> decide

lemma wf_close_not_ws {t : List Token} (hwf : wfTokens t = true) {i : Nat}
    (hi : i < t.length) (hc : (tokAt t i).src ∈ END_BRACES) :
    isWsTok (tokAt t i) = false := by
  by_contra hne
  have hws : isWsTok (tokAt t i) = true := by
    cases h2 : isWsTok (tokAt t i)
    · exact absurd h2 hne
    · rfl
  have hall := wf_ws_src hwf (tokAt_mem hi) hws
  rw [end_brace_not_allws hc] at hall
  exact Bool.false_ne_true hall

lemma wf_comma_not_ws {t : List Token} (hwf : wfTokens t = true) {i : Nat}
    (hi : i < t.length) (hc : (tokAt t i).src = ",") :
    isWsTok (tokAt t i) = false := by
  by_contra hne
  have hws : isWsTok (tokAt t i) = true := by
    cases h2 : isWsTok (tokAt t i)
    · exact absurd h2 hne
    · rfl
  have hall := wf_ws_src hwf (tokAt_mem hi) hws
  rw [hc] at hall
  exact absurd hall (by decide)

lemma close_not_comma {tok : Token} (h : tok.src ∈ END_BRACES) :
    isCommaTok tok = false := by
  simp only [END_BRACES, List.mem_cons, List.mem_singleton, List.not_mem_nil, or_false] at h
  rcases h with h | h | h <;> simp [isCommaTok, h]

lemma wfTokens_of_mem_imp {t : List Token}
    (h : ∀ tok ∈ t, isWsTok tok = true → tok.src.data.all isWsChar = true) :
    wfTokens t = true := by
  refine List.all_eq_true.mpr ?_
  intro tok hm
  cases hws : isWsTok tok
  · simp
  · simp only [hws, Bool.not_true, Bool.false_or]
    exact h tok hm hws

lemma wfTokens_removeAt {t : List Token} (h : wfTokens t = true) (j : Nat) :
    wfTokens (removeAt j t) = true := by
  refine wfTokens_of_mem_imp ?_
  intro tok hm hws
  exact wf_ws_src h (mem_removeAt hm) hws

lemma wfTokens_setAt {t : List Token} (h : wfTokens t = true) (j : Nat) {x : Token}
    (hx : isWsTok x = true → x.src.data.all isWsChar = true) :
    wfTokens (setAt j x t) = true := by
  refine wfTokens_of_mem_imp ?_
  intro tok hm hws
  rcases mem_setAt hm with h1 | h1
  · exact h1 ▸ hx (h1 ▸ hws)
  · exact wf_ws_src h h1 hws

lemma wfTokens_insertAt {t : List Token} (h : wfTokens t = true) (j : Nat) {x : Token}
    (hx : isWsTok x = true → x.src.data.all isWsChar = true) :
    wfTokens (insertAt j x t) = true := by
  refine wfTokens_of_mem_imp ?_
  intro tok hm hws
  rcases mem_insertAt hm with h1 | h1
  · exact h1 ▸ hx (h1 ▸ hws)
  · exact wf_ws_src h h1 hws

lemma lineIndentOf_allws {t : List Token} (h : wfTokens t = true) (k : Nat) :
    (lineIndentOf t k).data.all isWsChar = true := by
  unfold lineIndentOf
  by_cases hname : (tokAt t (lineIndentStart t k)).name = "UNIMPORTANT_WS"
  · rw [if_pos hname]
    by_cases hlt : lineIndentStart t k < t.length
    · exact wf_ws_src h (tokAt_mem hlt) (by simp [isWsTok, hname])
    · rw [tokAt, List.getD_eq_default] at hname
      · simp at hname
      · omega
  · rw [if_neg hname]
    decide

/-! ## Lemmas about the change projection -/

lemma proj_cons_close {pend : List Char} {c : Token} {rest : List Token}
    (h1 : isWsTok c = false) (h2 : isCommaTok c = false) (h3 : isCloseTok c = true) :
    projFrom pend (c :: rest) = c.src.data :: projFrom [] rest := by
  simp [projFrom, h1, h2, h3]

lemma proj_cons_congr {tok : Token} {a b : List Token}
    (h : ∀ pend, projFrom pend a = projFrom pend b) :
    ∀ pend, projFrom pend (tok :: a) = projFrom pend (tok :: b) := by
  intro pend
  simp only [projFrom]
  split_ifs <;> simp [h]

lemma proj_removeAt {t : List Token} {j : Nat}
    (hsrc : (tokAt t j).src = ",") (hws : isWsTok (tokAt t j) = false) :
    ∀ pend, projFrom pend (removeAt j t) = projFrom pend t := by
  induction t generalizing j with
  | nil => intro pend; cases j <;> rfl
  | cons tok ts ih =>
    cases j with
    | zero =>
      rw [tokAt_cons_zero] at hsrc hws
      intro pend
      have hcomma : isCommaTok tok = true := by simp [isCommaTok, hsrc]
      simp [removeAt, projFrom, hws, hcomma]
    | succ m =>
      rw [tokAt_cons_succ] at hsrc hws
      exact proj_cons_congr (ih hsrc hws)

lemma proj_insertComma {t : List Token} :
    ∀ (j : Nat) (pend : List Char),
      projFrom pend (insertAt j ⟨"OP", ","⟩ t) = projFrom pend t := by
  induction t with
  | nil =>
    intro j pend
    cases j <;> simp [insertAt, projFrom, isWsTok, isCommaTok]
  | cons tok ts ih =>
    intro j pend
    cases j with
    | zero => simp [insertAt, projFrom, isWsTok, isCommaTok]
    | succ m => exact proj_cons_congr (fun p => ih m p) pend

lemma proj_setAt {t : List Token} {j : Nat} {x : Token}
    (hold : isWsTok (tokAt t j) = true) (hnew : isWsTok x = true)
    (hc1 : isWsTok (tokAt t (j+1)) = false) (hc2 : isCommaTok (tokAt t (j+1)) = false)
    (hc3 : isCloseTok (tokAt t (j+1)) = true) :
    ∀ pend, projFrom pend (setAt j x t) = projFrom pend t := by
  induction t generalizing j with
  | nil => intro pend; cases j <;> rfl
  | cons tok ts ih =>
    cases j with
    | zero =>
      rw [tokAt_cons_zero] at hold
      rw [tokAt_cons_succ] at hc1 hc2 hc3
      intro pend
      cases ts with
      | nil =>
        rw [tokAt_nil] at hc3
        simp [isCloseTok, END_BRACES] at hc3
      | cons c rest =>
        rw [tokAt_cons_zero] at hc1 hc2 hc3
        show projFrom pend (x :: c :: rest) = projFrom pend (tok :: c :: rest)
        have l1 : projFrom pend (x :: c :: rest)
            = projFrom (pend ++ x.src.data) (c :: rest) := by
          simp [projFrom, hnew]
        have l2 : projFrom pend (tok :: c :: rest)
            = projFrom (pend ++ tok.src.data) (c :: rest) := by
          simp [projFrom, hold]
        rw [l1, l2, proj_cons_close hc1 hc2 hc3, proj_cons_close hc1 hc2 hc3]
    | succ m =>
      rw [tokAt_cons_succ] at hold
      rw [tokAt_cons_succ] at hc1 hc2 hc3
      exact proj_cons_congr (ih hold hc1 hc2 hc3)

/-! ## Postconditions of the bracket-region analyzer -/

lemma matchingClose_some {t : List Token} :
    ∀ {fuel k : Nat} {stack : List String} {cr : Nat},
      matchingClose t fuel k stack = some cr →
      k ≤ cr ∧ cr < t.length ∧ (tokAt t cr).src ∈ END_BRACES := by
  intro fuel
  induction fuel with
  | zero =>
    intro k stack cr h
    simp [matchingClose] at h
  | succ n ih =>
    intro k stack cr h
    simp only [matchingClose] at h
    split at h
    next hk =>
      split at h
      next h1 =>
        have := ih h
        exact ⟨by omega, this.2⟩
      next h1 =>
        split at h
        next h2 =>
          split at h
          next => simp at h
          next c0 =>
            split at h
            next h3 =>
              have hkc : k = cr := by simpa using h
              subst hkc
              exact ⟨Nat.le_refl _, hk, h2⟩
            next h3 => simp at h
          next c0 c1 rest =>
            split at h
            next h3 =>
              have := ih h
              exact ⟨by omega, this.2⟩
            next h3 => simp at h
        next h2 =>
          have := ih h
          exact ⟨by omega, this.2⟩
    next hk => simp at h

lemma find_simple_some {i : Nat} {t : List Token} {fd : FixData}
    (h : find_simple i t = some fd) :
    fd.openB = i ∧ i < fd.close ∧ fd.close < t.length ∧
      (tokAt t fd.close).src ∈ END_BRACES := by
  unfold find_simple at h
  by_cases h0 : (tokAt t i).src ∈ START_BRACES
  · rw [if_pos h0] at h
    cases hm : matchingClose t t.length (i+1) [closerOf (tokAt t i).src] with
    | none => rw [hm] at h; simp at h
    | some c =>
      rw [hm] at h
      simp only at h
      have hp := matchingClose_some hm
      by_cases hz : countElems t c (i+1) c 0 false 0 = 0
      · rw [if_pos hz] at h
        simp at h
      · rw [if_neg hz] at h
        have heq : fd = ⟨true, i, c⟩ := by
          cases h
          rfl
        subst heq
        refine ⟨rfl, ?_, ?_, ?_⟩
        · show i < c
          have := hp.1
          omega
        · show c < t.length
          exact hp.2.1
        · show (tokAt t c).src ∈ END_BRACES
          exact hp.2.2
  · rw [if_neg h0] at h
    simp at h

/-! ## Step lemmas: what one loop iteration may change -/

lemma isWsTok_of_guard {tok : Token} (h : tok.name ∈ ["UNIMPORTANT_WS", "NL"]) :
    isWsTok tok = true := by
  simp only [List.mem_cons, List.mem_singleton, List.not_mem_nil, or_false] at h
  rcases h with h | h <;> simp [isWsTok, h]

lemma insertAt_length :
    ∀ {t : List Token} {j : Nat} {x : Token}, j ≤ t.length →
      (insertAt j x t).length = t.length + 1 := by
  intro t
  induction t with
  | nil =>
    intro j x hj
    simp only [List.length_nil, Nat.le_zero] at hj
    subst hj
    rfl
  | cons tok ts ih =>
    intro j x hj
    cases j with
    | zero => rfl
    | succ m =>
      simp only [insertAt, List.length_cons]
      rw [ih (by simpa using hj)]

lemma removeAt_length :
    ∀ {t : List Token} {j : Nat}, j < t.length → (removeAt j t).length + 1 = t.length := by
  intro t
  induction t with
  | nil => intro j h; simp at h
  | cons tok ts ih =>
    intro j hj
    cases j with
    | zero => rfl
    | succ m =>
      simp only [removeAt, List.length_cons]
      rw [ih (by simpa using hj)]

lemma proj_setAt_before_close {t : List Token} {lb : Nat} {x : Token}
    (hwf : wfTokens t = true) (hnew : isWsTok x = true)
    (h1 : 1 ≤ lb) (h2 : lb < t.length)
    (h3 : (tokAt t lb).src ∈ END_BRACES)
    (hold : isWsTok (tokAt t (lb - 1)) = true) :
    projFrom [] (setAt (lb - 1) x t) = projFrom [] t := by
  have e : lb - 1 + 1 = lb := by omega
  have hb1 : isWsTok (tokAt t (lb - 1 + 1)) = false := by
    rw [e]; exact wf_close_not_ws hwf h2 h3
  have hb2 : isCommaTok (tokAt t (lb - 1 + 1)) = false := by
    rw [e]; exact close_not_comma h3
  have hb3 : isCloseTok (tokAt t (lb - 1 + 1)) = true := by
    rw [e]; simp [isCloseTok, h3]
  exact proj_setAt hold hnew hb1 hb2 hb3 []

lemma fix_unhugged_frame (t : List Token) (fd : Option FixData) :
    RemoveFrame t (fix_unhugged_brace t fd) := by
  cases fd with
  | none => exact rf_refl t
  | some fd2 =>
    simp only [fix_unhugged_brace]
    by_cases h1 : ¬fd2.multi_arg = true
    · rw [if_pos h1]
      exact rf_refl t
    · rw [if_neg h1]
      by_cases h2 : (tokAt t (fd2.close - 1)).name ∈ ["UNIMPORTANT_WS", "NL"]
      · rw [if_pos h2]
        exact rf_setAt h2
      · rw [if_neg h2]
        exact rf_refl t

lemma fix_unhugged_subst (t : List Token) (fd : Option FixData) :
    SubstOnly t (fix_unhugged_brace t fd) := by
  cases fd with
  | none => exact so_refl t
  | some fd2 =>
    simp only [fix_unhugged_brace]
    by_cases h1 : ¬fd2.multi_arg = true
    · rw [if_pos h1]
      exact so_refl t
    · rw [if_neg h1]
      by_cases h2 : (tokAt t (fd2.close - 1)).name ∈ ["UNIMPORTANT_WS", "NL"]
      · rw [if_pos h2]
        exact so_setAt h2
      · rw [if_neg h2]
        exact so_refl t

lemma fix_unhugged_wf {t : List Token} (hwf : wfTokens t = true) (fd : Option FixData) :
    wfTokens (fix_unhugged_brace t fd) = true := by
  cases fd with
  | none => exact hwf
  | some fd2 =>
    simp only [fix_unhugged_brace]
    by_cases h1 : ¬fd2.multi_arg = true
    · rw [if_pos h1]
      exact hwf
    · rw [if_neg h1]
      by_cases h2 : (tokAt t (fd2.close - 1)).name ∈ ["UNIMPORTANT_WS", "NL"]
      · rw [if_pos h2]
        exact wfTokens_setAt hwf _ (fun _ => by decide)
      · rw [if_neg h2]
        exact hwf

lemma fix_unhugged_proj_valid {t : List Token} {fd : FixData}
    (hwf : wfTokens t = true) (h1 : 1 ≤ fd.close) (h2 : fd.close < t.length)
    (h3 : (tokAt t fd.close).src ∈ END_BRACES) :
    projFrom [] (fix_unhugged_brace t (some fd)) = projFrom [] t := by
  simp only [fix_unhugged_brace]
  by_cases hm : ¬fd.multi_arg = true
  · rw [if_pos hm]
  · rw [if_neg hm]
    by_cases hg : (tokAt t (fd.close - 1)).name ∈ ["UNIMPORTANT_WS", "NL"]
    · rw [if_pos hg]
      exact proj_setAt_before_close hwf (by decide) h1 h2 h3 (isWsTok_of_guard hg)
    · rw [if_neg hg]

lemma fix_unhugged_eq_self_of_not_ws {t : List Token} {fd : FixData}
    (h : (tokAt t (fd.close - 1)).name ∉ ["UNIMPORTANT_WS", "NL"]) :
    fix_unhugged_brace t (some fd) = t := by
  simp only [fix_unhugged_brace]
  by_cases hm : ¬fd.multi_arg = true
  · rw [if_pos hm]
  · rw [if_neg hm, if_neg h]

lemma removeStepBrace_frame (srcTxt : List Char) (i : Nat) (t : List Token)
    (fd : Option FixData) : RemoveFrame t (removeStepBrace srcTxt i t fd) := by
  cases fd with
  | none => exact fix_unhugged_frame t none
  | some fd2 =>
    simp only [removeStepBrace]
    split
    · split
      · exact rf_refl t
      · split
        next hdel =>
          exact rf_trans (rf_removeAt hdel.2) (fix_unhugged_frame _ (some fd2))
        next => exact fix_unhugged_frame t (some fd2)
    · exact fix_unhugged_frame t (some fd2)

lemma removeStep_frame (srcTxt : List Char) (i : Nat) (t : List Token) :
    RemoveFrame t (removeStep srcTxt i t) := by
  simp only [removeStep]
  split
  · exact rf_refl t
  split
  · exact removeStepBrace_frame srcTxt i t (find_simple i t)
  · exact rf_refl t

lemma removeStepBrace_wf {srcTxt : List Char} {i : Nat} {t : List Token}
    (hwf : wfTokens t = true) (fd : Option FixData) :
    wfTokens (removeStepBrace srcTxt i t fd) = true := by
  cases fd with
  | none => exact fix_unhugged_wf hwf none
  | some fd2 =>
    simp only [removeStepBrace]
    split
    · split
      · exact hwf
      · split
        · exact fix_unhugged_wf (wfTokens_removeAt hwf _) (some fd2)
        · exact fix_unhugged_wf hwf (some fd2)
    · exact fix_unhugged_wf hwf (some fd2)

lemma removeStep_wf {srcTxt : List Char} {i : Nat} {t : List Token}
    (hwf : wfTokens t = true) : wfTokens (removeStep srcTxt i t) = true := by
  simp only [removeStep]
  split
  · exact hwf
  split
  · exact removeStepBrace_wf hwf (find_simple i t)
  · exact hwf

lemma removeStepBrace_proj {srcTxt : List Char} {i : Nat} {t : List Token} {fd : FixData}
    (hwf : wfTokens t = true) (hfs : find_simple i t = some fd) :
    projFrom [] (removeStepBrace srcTxt i t (some fd)) = projFrom [] t := by
  have hpost := find_simple_some hfs
  have hcl1 : 1 ≤ fd.close := by omega
  have hcl2 : fd.close < t.length := hpost.2.2.1
  have hcl3 : (tokAt t fd.close).src ∈ END_BRACES := hpost.2.2.2
  simp only [removeStepBrace]
  split
  · split
    · rfl
    · split
      next hdel =>
        have hj_le : backToNonWs t i (fd.close - 1) ≤ fd.close - 1 :=
          backToNonWs_le t i (fd.close - 1)
        have hj_lt : backToNonWs t i (fd.close - 1) < t.length := by omega
        have hstale :
            tokAt (removeAt (backToNonWs t i (fd.close - 1)) t) (fd.close - 1)
              = tokAt t fd.close := by
          have h := @tokAt_removeAt_ge t (backToNonWs t i (fd.close - 1)) (fd.close - 1)
            hj_lt hj_le
          rw [h]
          congr 1
          omega
        have hng : (tokAt (removeAt (backToNonWs t i (fd.close - 1)) t) (fd.close - 1)).name
            ∉ ["UNIMPORTANT_WS", "NL"] := by
          rw [hstale]
          intro hmem
          have hx := isWsTok_of_guard hmem
          rw [wf_close_not_ws hwf hcl2 hcl3] at hx
          exact Bool.false_ne_true hx
        rw [fix_unhugged_eq_self_of_not_ws hng]
        exact proj_removeAt hdel.2 (wf_comma_not_ws hwf hj_lt hdel.2) []
      next => exact fix_unhugged_proj_valid hwf hcl1 hcl2 hcl3
  · exact fix_unhugged_proj_valid hwf hcl1 hcl2 hcl3

lemma removeStep_proj {srcTxt : List Char} {i : Nat} {t : List Token}
    (hwf : wfTokens t = true) :
    projFrom [] (removeStep srcTxt i t) = projFrom [] t := by
  simp only [removeStep]
  split
  · rfl
  split
  · cases hfs : find_simple i t with
    | none => rfl
    | some fd => exact removeStepBrace_proj hwf hfs
  · rfl

lemma removeLoop_frame (srcTxt : List Char) :
    ∀ (fuel i : Nat) (t : List Token), RemoveFrame t (removeLoop srcTxt fuel i t) := by
  intro fuel
  induction fuel with
  | zero => intro i t; exact rf_refl t
  | succ n ih =>
    intro i t
    unfold removeLoop
    split
    · exact rf_trans (removeStep_frame srcTxt i t) (ih (i+1) _)
    · exact rf_refl t

lemma removeLoop_wf (srcTxt : List Char) :
    ∀ (fuel i : Nat) (t : List Token), wfTokens t = true →
      wfTokens (removeLoop srcTxt fuel i t) = true := by
  intro fuel
  induction fuel with
  | zero => intro i t h; exact h
  | succ n ih =>
    intro i t h
    unfold removeLoop
    split
    · exact ih (i+1) _ (removeStep_wf h)
    · exact h

lemma removeLoop_proj (srcTxt : List Char) :
    ∀ (fuel i : Nat) (t : List Token), wfTokens t = true →
      projFrom [] (removeLoop srcTxt fuel i t) = projFrom [] t := by
  intro fuel
  induction fuel with
  | zero => intro i t _; rfl
  | succ n ih =>
    intro i t h
    unfold removeLoop
    split
    · rw [ih (i+1) _ (removeStep_wf h), removeStep_proj h]
    · rfl

lemma normalizeClose_proj {t : List Token} {op lb : Nat}
    (hwf : wfTokens t = true) (h1 : 1 ≤ lb) (h2 : lb < t.length)
    (h3 : (tokAt t lb).src ∈ END_BRACES) :
    projFrom [] (normalizeClose t op lb) = projFrom [] t := by
  unfold normalizeClose
  by_cases hg : (tokAt t (lb - 1)).name = "UNIMPORTANT_WS" ∧ (tokAt t (lb - 2)).name = "NL"
  · rw [if_pos hg]
    exact proj_setAt_before_close hwf (by simp [isWsTok]) h1 h2 h3 (by simp [isWsTok, hg.1])
  · rw [if_neg hg]

lemma normalizeClose_wf {t : List Token} (hwf : wfTokens t = true) (op lb : Nat) :
    wfTokens (normalizeClose t op lb) = true := by
  unfold normalizeClose
  by_cases hg : (tokAt t (lb - 1)).name = "UNIMPORTANT_WS" ∧ (tokAt t (lb - 2)).name = "NL"
  · rw [if_pos hg]
    exact wfTokens_setAt hwf _ (fun _ => lineIndentOf_allws hwf op)
  · rw [if_neg hg]
    exact hwf

lemma fix_brace_proj {t : List Token} {i : Nat} {fd : FixData}
    (hwf : wfTokens t = true) (hfs : find_simple i t = some fd) :
    projFrom [] (fix_brace t (some fd)) = projFrom [] t := by
  have hpost := find_simple_some hfs
  have hcl1 : 1 ≤ fd.close := by omega
  have hcl2 : fd.close < t.length := hpost.2.2.1
  have hcl3 : (tokAt t fd.close).src ∈ END_BRACES := hpost.2.2.2
  have hj_le : backToNonWs t fd.openB (fd.close - 1) ≤ fd.close - 1 :=
    backToNonWs_le t fd.openB (fd.close - 1)
  simp only [fix_brace]
  split
  · split
    next hins =>
      have hj1 : backToNonWs t fd.openB (fd.close - 1) + 1 ≤ fd.close := by omega
      have hlen : backToNonWs t fd.openB (fd.close - 1) + 1 ≤ t.length := by omega
      have hwf2 : wfTokens
          (insertAt (backToNonWs t fd.openB (fd.close - 1) + 1) ⟨"OP", ","⟩ t) = true := by
        refine wfTokens_insertAt hwf _ ?_
        intro h
        simp [isWsTok] at h
      have hat : tokAt (insertAt (backToNonWs t fd.openB (fd.close - 1) + 1) ⟨"OP", ","⟩ t)
          (fd.close + 1) = tokAt t fd.close := tokAt_insertAt_ge hj1 hlen
      have hlen2 : fd.close + 1
          < (insertAt (backToNonWs t fd.openB (fd.close - 1) + 1) ⟨"OP", ","⟩ t).length := by
        rw [insertAt_length hlen]
        omega
      rw [normalizeClose_proj hwf2 (by omega) hlen2 (by rw [hat]; exact hcl3)]
      exact proj_insertComma _ []
    next => exact normalizeClose_proj hwf hcl1 hcl2 hcl3
  · rfl

lemma fix_brace_wf {t : List Token} (hwf : wfTokens t = true) (fd : Option FixData) :
    wfTokens (fix_brace t fd) = true := by
  cases fd with
  | none => exact hwf
  | some fd2 =>
    simp only [fix_brace]
    split
    · split
      · refine normalizeClose_wf ?_ _ _
        refine wfTokens_insertAt hwf _ ?_
        intro h
        simp [isWsTok] at h
      · exact normalizeClose_wf hwf _ _
    · exact hwf

lemma addStep_proj {srcTxt : List Char} {i : Nat} {t : List Token}
    (hwf : wfTokens t = true) :
    projFrom [] (addStep srcTxt i t) = projFrom [] t := by
  simp only [addStep]
  split
  · rfl
  split
  · split
    · cases hfs : find_simple i t with
      | none => rfl
      | some fd => exact fix_brace_proj hwf hfs
    · cases hfs : find_simple i t with
      | none => rfl
      | some fd =>
        have hpost := find_simple_some hfs
        exact fix_unhugged_proj_valid hwf (by omega) hpost.2.2.1 hpost.2.2.2
  · rfl

lemma addStep_wf {srcTxt : List Char} {i : Nat} {t : List Token}
    (hwf : wfTokens t = true) : wfTokens (addStep srcTxt i t) = true := by
  simp only [addStep]
  split
  · exact hwf
  split
  · split
    · exact fix_brace_wf hwf _
    · exact fix_unhugged_wf hwf _
  · exact hwf

lemma addLoop_wf (srcTxt : List Char) :
    ∀ (fuel i : Nat) (t : List Token), wfTokens t = true →
      wfTokens (addLoop srcTxt fuel i t) = true := by
  intro fuel
  induction fuel with
  | zero => intro i t h; exact h
  | succ n ih =>
    intro i t h
    unfold addLoop
    split
    · exact ih (i+1) _ (addStep_wf h)
    · exact h

lemma addLoop_proj (srcTxt : List Char) :
    ∀ (fuel i : Nat) (t : List Token), wfTokens t = true →
      projFrom [] (addLoop srcTxt fuel i t) = projFrom [] t := by
  intro fuel
  induction fuel with
  | zero => intro i t _; rfl
  | succ n ih =>
    intro i t h
    unfold addLoop
    split
    · rw [ih (i+1) _ (addStep_wf h), addStep_proj h]
    · rfl

lemma addStep_subst {srcTxt : List Char} {i : Nat} {t : List Token}
    (hpat : skip_patterns_match srcTxt = true) :
    SubstOnly t (addStep srcTxt i t) := by
  simp only [addStep]
  split
  · exact so_refl t
  split
  · have hskip : should_skip_adding_comma srcTxt (find_simple i t) = true := by
      simp [should_skip_adding_comma, hpat]
    rw [if_neg (by simp [hskip])]
    exact fix_unhugged_subst t (find_simple i t)
  · exact so_refl t

lemma addLoop_subst (srcTxt : List Char) (hpat : skip_patterns_match srcTxt = true) :
    ∀ (fuel i : Nat) (t : List Token), SubstOnly t (addLoop srcTxt fuel i t) := by
  intro fuel
  induction fuel with
  | zero => intro i t; exact so_refl t
  | succ n ih =>
    intro i t
    unfold addLoop
    split
    · exact so_trans (addStep_subst hpat) (ih (i+1) _)
    · exact so_refl t

/-! ## The backward scan agrees with the declarative nearest-predecessor -/

lemma nearestPrevNonWs_zero (t : List Token) : nearestPrevNonWs t 0 = none := by
  simp [nearestPrevNonWs]

lemma nearestPrevNonWs_succ (t : List Token) (k : Nat) :
    nearestPrevNonWs t (k+1) =
      if (tokAt t k).name ∈ ["UNIMPORTANT_WS", "NL"] then nearestPrevNonWs t k
      else some k := by
  unfold nearestPrevNonWs
  rw [List.range_succ, List.reverse_append]
  simp only [List.reverse_singleton, List.singleton_append]
  by_cases h : (tokAt t k).name ∈ ["UNIMPORTANT_WS", "NL"]
  · rw [if_pos h]
    rw [List.find?_cons_of_neg]
    simp [h]
  · rw [if_neg h]
    rw [List.find?_cons_of_pos]
    simp [h]

lemma scanBack_eq_nearest (t : List Token) :
    ∀ k, scanBack t k = nearestPrevNonWs t (k+1) := by
  intro k
  induction k with
  | zero =>
    rw [nearestPrevNonWs_succ]
    simp only [scanBack]
    by_cases h : (tokAt t 0).name ∈ ["UNIMPORTANT_WS", "NL"]
    · rw [if_pos h, if_pos h, nearestPrevNonWs_zero]
    · rw [if_neg h, if_neg h]
  | succ n ih =>
    rw [nearestPrevNonWs_succ]
    simp only [scanBack]
    by_cases h : (tokAt t (n+1)).name ∈ ["UNIMPORTANT_WS", "NL"]
    · rw [if_pos h, if_pos h, ih]
    · rw [if_neg h, if_neg h]

/-! ## The claims -/

/-- C1, counterexample: this input is syntactically invalid (its brackets
are unbalanced, so no parse can succeed), yet add-mode `_fix_src` does not
return it unchanged: the hard-coded replacement table is consulted before
the parse, matches a substring, and replaces the whole text. -/
theorem c1_counterexample :
    ast_parse_ok "x = (\"foo\"\n     \"bar\")\n(((\n" = false ∧
    fix_src "x = (\"foo\"\n     \"bar\")\n(((\n" false ≠ "x = (\"foo\"\n     \"bar\")\n(((\n" := by
  constructor
  · decide
  · decide

/-- C1 (amended): for syntactically invalid input, remove mode always
returns the text unchanged, and add mode returns it unchanged provided the
text contains none of the five hard-coded literal replacement patterns. -/
theorem c1_parse_failure_noop (s : String) (hparse : ast_parse_ok s = false) :
    fix_src s true = s ∧ (hardcodedLookup s = none → fix_src s false = s) := by
  constructor
  · show remove_trailing_commas s = s
    unfold remove_trailing_commas
    rw [if_neg (by simp [hparse])]
  · intro hl
    show (match hardcodedLookup s with
      | some r => r
      | none =>
        if ast_parse_ok s then
          tokens_to_src (addLoop s.data (2 * (src_to_tokens s).length + 2) 0 (src_to_tokens s))
        else s) = s
    rw [hl]
    simp only
    rw [if_neg (by simp [hparse])]

/-- C1, witness for the amended theorem at a concrete unparseable input. -/
theorem c1_parse_failure_noop_witness :
    ast_parse_ok "(((\n" = false ∧ hardcodedLookup "(((\n" = none ∧
    fix_src "(((\n" true = "(((\n" ∧ fix_src "(((\n" false = "(((\n" := by
  refine ⟨by decide, by decide, ?_, ?_⟩
  · exact (c1_parse_failure_noop "(((\n" (by decide)).1
  · exact (c1_parse_failure_noop "(((\n" (by decide)).2 (by decide)

/-- C2: remove mode is not idempotent.  On `f(\n    1,\n    )\n` the first
application deletes the comma (the stale close-brace index then makes the
brace-indentation fix a no-op), while the second application, finding no
comma, replaces the whitespace before the close bracket by a newline —
changing the text again. -/
theorem c2_remove_not_idempotent :
    fix_src "f(\n    1,\n    )\n" true = "f(\n    1\n    )\n" ∧
    fix_src (fix_src "f(\n    1,\n    )\n" true) true = "f(\n    1\n\n)\n" ∧
    fix_src (fix_src "f(\n    1,\n    )\n" true) true ≠ fix_src "f(\n    1,\n    )\n" true := by
  refine ⟨by decide, by decide, by decide⟩

/-- C3: remove mode keeps the tuple-forming comma of `x = (1,)` and deletes
the cosmetic comma of `x = (1, 2,)`. -/
theorem c3_single_tuple_preserved :
    fix_src "x = (1,)\n" true = "x = (1,)\n" ∧
    fix_src "x = (1, 2,)\n" true = "x = (1, 2)\n" := by
  refine ⟨by decide, by decide⟩

/-- C4, counterexample: the analyzer returns a descriptor for a single-line
bracketed region, and remove mode deletes its trailing comma — contradicting
the claim that non-multiline regions are ineligible and their commas never
removed (the repository's own `test_main_preserve_single_tuple_comma`
expects this removal). -/
theorem c4_counterexample :
    find_simple 4 (src_to_tokens "y = [1, 2,]\n") ≠ none ∧
    fix_src "y = [1, 2,]\n" true ≠ "y = [1, 2,]\n" := by
  refine ⟨by decide, by decide⟩

/-- C4 (amended): in remove mode a trailing separator is deleted from
eligible regions whether or not they span multiple lines — the analyzer
returns a descriptor for single-line regions too, and only add mode's
comma insertion is restricted to multiline regions. -/
theorem c4_single_line_removal :
    find_simple 4 (src_to_tokens "y = [1, 2,]\n") = some ⟨true, 4, 10⟩ ∧
    fix_src "y = [1, 2,]\n" true = "y = [1, 2]\n" ∧
    fix_src "x(1, 2)\n" false = "x(1, 2)\n" := by
  refine ⟨by decide, by decide, by decide⟩

/-- C5, counterexample: on an input with no trailing comma at all, remove
mode still changes the text — the always-applied close-brace fix replaces
the indentation before `)` by a newline. -/
theorem c5_counterexample :
    fix_src "f(\n    1\n    )\n" true = "f(\n    1\n\n)\n" ∧
    fix_src "f(\n    1\n    )\n" true ≠ "f(\n    1\n    )\n" := by
  refine ⟨by decide, by decide⟩

/-- C5 (amended): in remove mode the only changes are deletions of comma
tokens and replacements of whitespace tokens by a newline (`RemoveFrame`),
and all whitespace changes sit immediately before a closing bracket, so the
change projection is preserved. -/
theorem c5_remove_only_commas_and_close_ws (srcTxt : List Char) (fuel i : Nat)
    (t : List Token) (hwf : wfTokens t = true) :
    RemoveFrame t (removeLoop srcTxt fuel i t) ∧
    frameProj (removeLoop srcTxt fuel i t) = frameProj t :=
  ⟨removeLoop_frame srcTxt fuel i t, removeLoop_proj srcTxt fuel i t hwf⟩

/-- C5, witness for the amended theorem on the counterexample's input. -/
theorem c5_remove_only_commas_and_close_ws_witness :
    wfTokens (src_to_tokens "f(\n    1\n    )\n") = true ∧
    (RemoveFrame (src_to_tokens "f(\n    1\n    )\n")
        (removeLoop "f(\n    1\n    )\n".data 11 0 (src_to_tokens "f(\n    1\n    )\n")) ∧
      frameProj (removeLoop "f(\n    1\n    )\n".data 11 0 (src_to_tokens "f(\n    1\n    )\n"))
        = frameProj (src_to_tokens "f(\n    1\n    )\n")) :=
  ⟨by decide,
    c5_remove_only_commas_and_close_ws "f(\n    1\n    )\n".data 11 0
      (src_to_tokens "f(\n    1\n    )\n") (by decide)⟩

/-- C6, counterexample: in `s = \x7b(1,)\x7d` the token before the inner
`(` is `\x7b`, an opening collection bracket, and the region is a
parenthesized single element ending in a comma outside import and
definition contexts — tuple-forming by the claim's rule — yet the code
classifies it as not tuple-forming and remove mode deletes the comma,
turning the set's tuple element into a plain number. -/
theorem c6_counterexample :
    claim_tuple_forming (src_to_tokens "s = \x7b(1,)\x7d\n") 5 8 = true ∧
    is_single_element_tuple (src_to_tokens "s = \x7b(1,)\x7d\n") 5 8 = false ∧
    fix_src "s = \x7b(1,)\x7d\n" true = "s = \x7b(1)\x7d\n" := by
  refine ⟨by decide, by decide, by decide⟩

/-- C6 (amended): the code classifies a region as a single-element tuple
exactly when it is a parenthesized single-argument region whose nearest
preceding non-whitespace token is an assignment operator, `return`, a
comma, or an opening *square* bracket (`[` only — `\x7b` and `(` do not
count), outside the code's import and function-definition contexts. -/
theorem c6_tuple_context_characterization (t : List Token) (i last : Nat) :
    is_single_element_tuple t i last = true ↔
      (argCountGo t last (last + 1) (i+1) 0 = 1 ∧ (tokAt t i).src = "(" ∧
        ∃ k, nearestPrevNonWs t i = some k ∧
          (tokAt t k).src ∈ ["=", "+=", "-=", "*=", "/=", "%=", "//=", "**=",
            "&=", "|=", "^=", ">>=", "<<=", "return", ",", "["] ∧
          ¬((tokAt t k).src = "import" ∨
            (0 < k ∧ (tokAt t k).src = "from" ∧ (tokAt t (k-1)).src = "import")) ∧
          ¬((tokAt t k).src = "def" ∨ (0 < k ∧ (tokAt t (k-1)).src = "def"))) := by
  unfold is_single_element_tuple
  by_cases h1 : argCountGo t last (last + 1) (i+1) 0 ≠ 1
  · rw [if_pos h1]
    constructor
    · intro h
      exact absurd h (by simp)
    · rintro ⟨ha, -, -⟩
      exact absurd ha h1
  · rw [if_neg h1]
    have ha : argCountGo t last (last + 1) (i+1) 0 = 1 := not_not.mp h1
    by_cases h2 : (tokAt t i).src ≠ "("
    · rw [if_pos h2]
      constructor
      · intro h
        exact absurd h (by simp)
      · rintro ⟨-, hb, -⟩
        exact absurd hb h2
    · rw [if_neg h2]
      have hb : (tokAt t i).src = "(" := not_not.mp h2
      by_cases h3 : i = 0
      · rw [if_pos h3]
        subst h3
        constructor
        · intro h
          exact absurd h (by simp)
        · rintro ⟨-, -, k, hk, -⟩
          rw [nearestPrevNonWs_zero] at hk
          exact absurd hk (by simp)
      · rw [if_neg h3]
        obtain ⟨m, rfl⟩ : ∃ m, i = m + 1 := ⟨i - 1, by omega⟩
        rw [show m + 1 - 1 = m from rfl]
        rw [scanBack_eq_nearest t m]
        cases hk : nearestPrevNonWs t (m+1) with
        | none =>
          constructor
          · intro h
            exact absurd h (by simp)
          · rintro ⟨-, -, k, hk2, -⟩
            exact absurd hk2 (by simp)
        | some k =>
          simp only [decide_eq_true_eq, TUPLE_OPS]
          constructor
          · intro h
            exact ⟨ha, hb, k, rfl, h.1, h.2.1, h.2.2⟩
          · rintro ⟨-, -, k2, hk2, hops, himp, hfun⟩
            have : k2 = k := ((Option.some.injEq _ _).mp hk2).symm
            subst this
            exact ⟨hops, himp, hfun⟩

/-- C7: on multiline regions add mode inserts exactly one comma after the
last element and leaves a close bracket already at the line start alone. -/
theorem c7_add_mode_inserts_comma :
    fix_src "x(\n    1\n)\n" false = "x(\n    1,\n)\n" ∧
    fix_src "x(\n    1,\n    2\n)\n" false = "x(\n    1,\n    2,\n)\n" := by
  refine ⟨by decide, by decide⟩

/-- C8, counterexample: on an input matching a hard-coded replacement
pattern, add mode rewrites bytes far beyond trailing commas and
close-bracket whitespace — the change projection (which erases exactly the
changes the claim permits) differs between input and output. -/
theorem c8_counterexample :
    frameProj (src_to_tokens (fix_src "x = (\"foo\"\n     \"bar\")" false)) ≠
      frameProj (src_to_tokens "x = (\"foo\"\n     \"bar\")") := by
  decide

/-- C8 (amended): at the token-rewrite level both passes preserve every
token except comma tokens and the whitespace immediately preceding closing
brackets; only the hard-coded replacement table, consulted before the
add-mode pass, can change anything else. -/
theorem c8_token_level_frame (srcTxt : List Char) (fuel i : Nat) (t : List Token)
    (hwf : wfTokens t = true) :
    frameProj (addLoop srcTxt fuel i t) = frameProj t ∧
    frameProj (removeLoop srcTxt fuel i t) = frameProj t :=
  ⟨addLoop_proj srcTxt fuel i t hwf, removeLoop_proj srcTxt fuel i t hwf⟩

/-- C8, witness for the amended theorem on a concrete add-mode input. -/
theorem c8_token_level_frame_witness :
    wfTokens (src_to_tokens "x(\n    1\n)\n") = true ∧
    (frameProj (addLoop "x(\n    1\n)\n".data 20 0 (src_to_tokens "x(\n    1\n)\n"))
        = frameProj (src_to_tokens "x(\n    1\n)\n") ∧
      frameProj (removeLoop "x(\n    1\n)\n".data 20 0 (src_to_tokens "x(\n    1\n)\n"))
        = frameProj (src_to_tokens "x(\n    1\n)\n")) :=
  ⟨by decide,
    c8_token_level_frame "x(\n    1\n)\n".data 20 0 (src_to_tokens "x(\n    1\n)\n")
      (by decide)⟩

/-- C9: when any skip regex matches the whole source text, every iteration
of the add-mode pass takes the skip branch, so no comma is inserted
anywhere — each token is kept or is a whitespace token replaced by a
newline (the close-bracket indentation fix). -/
theorem c9_skip_patterns_block_all_commas (srcTxt : List Char) (fuel i : Nat)
    (t : List Token) (hpat : skip_patterns_match srcTxt = true) :
    SubstOnly t (addLoop srcTxt fuel i t) :=
  addLoop_subst srcTxt hpat fuel i t

/-- C9, witness: a file whose first statement matches a skip regex keeps
its other region `x(\n    1\n)` comma-free, and add mode is a no-op on the
whole text. -/
theorem c9_skip_patterns_block_all_commas_witness :
    skip_patterns_match "tuple(\n    a for a in b\n)\nx(\n    1\n)\n".data = true ∧
    fix_src "tuple(\n    a for a in b\n)\nx(\n    1\n)\n" false
      = "tuple(\n    a for a in b\n)\nx(\n    1\n)\n" ∧
    SubstOnly (src_to_tokens "tuple(\n    a for a in b\n)\nx(\n    1\n)\n")
      (addLoop "tuple(\n    a for a in b\n)\nx(\n    1\n)\n".data 50 0
        (src_to_tokens "tuple(\n    a for a in b\n)\nx(\n    1\n)\n")) :=
  ⟨by decide, by decide,
    c9_skip_patterns_block_all_commas "tuple(\n    a for a in b\n)\nx(\n    1\n)\n".data 50 0
      (src_to_tokens "tuple(\n    a for a in b\n)\nx(\n    1\n)\n") (by decide)⟩

/-- C10: when the file's bytes are not valid UTF-8, `fix_file` returns exit
code 1 and leaves the bytes untouched, for every flag combination — in
particular even when `exit_zero_even_if_changed` is set, since the decode
check precedes any use of the flag. -/
theorem c10_decode_failure_returns_one (contents_bytes : List Nat) (args : Args)
    (h : utf8Decode contents_bytes = none) :
    fix_file contents_bytes args = (1, contents_bytes) := by
  unfold fix_file
  rw [h]

/-- C10, witness: the byte `0x80` is not valid UTF-8; with
`exit_zero_even_if_changed` set the exit code is still 1. -/
theorem c10_decode_failure_returns_one_witness :
    utf8Decode [0x80] = none ∧
    fix_file [0x80] ⟨false, true⟩ = (1, [0x80]) :=
  ⟨by decide, c10_decode_failure_returns_one [0x80] ⟨false, true⟩ (by decide)⟩

/-! ## Model validation

The embedding reproduces the expectations of the repository's own test
suite (`tests/main_test.py`) on every test input that stays within the
modelled token language, giving evidence that the spec-modelled
collaborators (`src_to_tokens`, `find_simple`, `fix_brace`, `ast_parse`)
are faithful to the behaviour the tests pin down. -/

lemma model_matches_repo_tests :
    fix_src "x = 5\n" false = "x = 5\n" ∧
    fix_src "x(\n    1\n)\n" false = "x(\n    1,\n)\n" ∧
    fix_src "x(\n    1,\n    2,\n)\n" true = "x(\n    1,\n    2\n)\n" ∧
    fix_src "def f(\n    arg1,\n    arg2,\n): pass\n" true
      = "def f(\n    arg1,\n    arg2\n): pass\n" ∧
    fix_src "from math import (\n    sin,\n)\n" true = "from math import (\n    sin\n)\n" ∧
    fix_src "def func(\n    x,\n):\n    pass\n" true = "def func(\n    x\n):\n    pass\n" ∧
    fix_src "result = func(\n    arg,\n)\n" true = "result = func(\n    arg\n)\n" := by
  refine ⟨by decide, by decide, by decide, by decide, by decide, by decide, by decide⟩
